import Mathlib

/-!
# Verification of the `rank_items` selector of `scripts/generate.py`

This file gives a shallow embedding, in Lean 4, of the item scoring and
selection algorithm implemented by the Python function `rank_items`
(`scripts/generate.py`), together with theorems settling the specified
properties of the scorer and the selector.

The embedding follows the source line by line:

* an `Item` is the dictionary built by `fetch_items` (string fields
  `source`, `title`, `link`, `summary`, `published`);
* `score_item` embeds the scoring block (keyword count over `KEYS`,
  `+1` for a non-empty link, `max(0, score - 2*avoid)`, and the `* 0.7`
  arXiv penalty), with scores in `ℚ`;
* `sortDesc` embeds the stable descending sort
  `scored.sort(key=lambda x: x[0], reverse=True)`;
* `selectLoop` embeds the first (per-source-capped) selection pass,
  `backfillLoop` the second (backfill) pass, and `rank_items` the whole
  function including the final defensive slice `selected[:limit]`.
-/

namespace Newsletter

/-- One feed entry as constructed by `fetch_items`: the dictionary with
string fields `source`, `title`, `link`, `summary`, `published`. -/
structure Item where
  source : String
  title : String
  link : String
  summary : String
  published : String
  deriving DecidableEq

/-- Whether the character list `p` is an initial segment of `s` (helper
for the embedding of Python's substring test). -/
def startsList : List Char → List Char → Bool
  | [], _ => true
  | _ :: _, [] => false
  | a :: p, b :: s => a == b && startsList p s

/-- Whether `p` occurs as a contiguous run inside `s`: the embedding of
Python's `p in s` substring test on character lists. -/
def occursIn : List Char → List Char → Bool
  | p, [] => p.isEmpty
  | p, b :: t => startsList p (b :: t) || occursIn p t

/-- Embedding of Python's `needle in hay` substring test on strings. -/
def subStr (needle hay : String) : Bool :=
  occursIn needle.toList hay.toList

/-- The tuple `KEYS` of positive keywords in `rank_items`. -/
def KEYS : List String :=
  [ "trade finance", "trade-finance", "letter of credit", "lc",
    "documentary credit", "bill of lading",
    "export finance", "export financing", "import finance", "export lc",
    "export letter of credit",
    "bank guarantee", "digital guarantee", "trade credit", "guarantees",
    "trade insurance",
    "international trade", "global trade", "export", "exporters",
    "trade flows", "cross-border trade",
    "export compliance", "export credit insurance", "export fraud",
    "tariff", "sanctions", "wto ruling", "custom regulation",
    "export control", "incoterms",
    "trade policy", "trade finance regulation", "trade finance policy",
    "shipping delays", "freight rates", "logistics costs",
    "global supply chain", "supply chain finance",
    "risk management", "payment risk", "currency risk", "working capital",
    "geopolitical risk",
    "accounts receivable", "receivables", "receivables financing",
    "documentation errors", "trade finance gap",
    "green trade", "digital trade", "ai in trade", "treasury", "swift",
    "iso 20022",
    "fintech", "financial technology", "digital payments", "api",
    "open banking", "blockchain" ]

/-- The tuple `AVOID_KEYS` of penalized keywords in `rank_items`. -/
def AVOID_KEYS : List String :=
  [ "stock trading", "day trading", "forex trading", "crypto",
    "cryptocurrency", "bitcoin",
    "options trading", "retail trading", "investment trading",
    "algorithmic trading" ]

/-- Embedding of Python's `.lower()` for the ASCII texts at hand, as a
character list (kernel-reducible, unlike `String.toLower`). -/
def lowerList (s : String) : List Char :=
  s.toList.map Char.toLower

/-- Embedding of `sum(k in text for k in keys)`: the number of keywords of
`keys` occurring as substrings of `text`. -/
def countMatches (keys : List String) (text : List Char) : Nat :=
  (keys.filter (fun k => occursIn k.toList text)).length

/-- Embedding of the scoring block of `rank_items` (lines 138-154 of
`scripts/generate.py`):

    text = (it["title"] + " " + it["summary"]).lower()
    score = sum(k in text for k in KEYS)
    if it["link"]: score += 1
    avoid_penalty = sum(k in text for k in AVOID_KEYS)
    score = max(0, score - (avoid_penalty * 2))
    if "arxiv.org" in it.get("link", ""): score = score * 0.7

Scores are embedded in `ℚ` (exact arithmetic for the `0.7` factor). -/
def score_item (it : Item) : ℚ :=
  let text := lowerList (it.title ++ " " ++ it.summary)
  let base : ℤ := countMatches KEYS text + (if it.link ≠ "" then 1 else 0)
  let avoid : ℤ := countMatches AVOID_KEYS text
  let clamped : ℤ := max 0 (base - avoid * 2)
  if subStr "arxiv.org" it.link then (clamped : ℚ) * (7 / 10) else (clamped : ℚ)

/-- Stable insertion of a scored item into a descending-sorted list: the
item goes before the first entry of smaller-or-equal score. -/
def insertDesc (x : ℚ × Item) : List (ℚ × Item) → List (ℚ × Item)
  | [] => [x]
  | y :: ys => if y.1 ≤ x.1 then x :: y :: ys else y :: insertDesc x ys

/-- Embedding of `scored.sort(key=lambda x: x[0], reverse=True)` as a
stable insertion sort, descending by score: Python's sort is stable, and
`reverse=True` preserves stability among equal keys. -/
def sortDesc : List (ℚ × Item) → List (ℚ × Item)
  | [] => []
  | x :: xs => insertDesc x (sortDesc xs)

/-- Scans to the end of a URL's network-location component: the netloc
stops at the first `/`, `?` or `#`. -/
def takeNetloc : List Char → List Char
  | [] => []
  | c :: rest => if c = '/' ∨ c = '?' ∨ c = '#' then [] else c :: takeNetloc rest

/-- Finds the character run following the first `://`, if any. -/
def afterSep : List Char → Option (List Char)
  | [] => none
  | ':' :: '/' :: '/' :: rest => some rest
  | _ :: rest => afterSep rest

/-- Modelled on `urllib.parse.urlparse(url).netloc` for the
`scheme://host/...` URLs this pipeline handles: the segment after the
first `://` up to the next `/`, `?` or `#`, and empty when the URL has no
`://` (in which case `urlparse` puts everything in the path). -/
def netlocList (url : String) : List Char :=
  match afterSep url.toList with
  | some rest => takeNetloc rest
  | none => []

/-- Embedding of Python's `.replace("www.", "")` on the netloc: removes
every non-overlapping occurrence of `www.`, scanning left to right — not
only a leading one. -/
def removeWWW : List Char → List Char
  | 'w' :: 'w' :: 'w' :: '.' :: rest => removeWWW rest
  | c :: rest => c :: removeWWW rest
  | [] => []

/-- Embedding of the source-identity computation of the first selection
pass (lines 167-175 of `scripts/generate.py`): `item.get("source", "")`,
falling back to `urlparse(item["link"]).netloc.replace("www.", "")` when
the source is empty and the link non-empty, and staying `""` when both are
empty. The `except` branch assigning `"unknown"` is unreachable in this
embedding because the modelled parser is total. -/
def sourceOf (it : Item) : String :=
  if it.source ≠ "" then it.source
  else if it.link ≠ "" then String.mk (removeWWW (netlocList it.link))
  else ""

/-- Embedding of the first selection pass (lines 160-181): iterate the
sorted scored list, break once `limit` entries are selected, and append an
item only when its source has fewer than 3 selected items so far. `cnt`
embeds the `source_count` dictionary. -/
def selectLoop (limit : ℤ) : List (ℚ × Item) → List Item → (String → Nat) → List Item
  | [], sel, _ => sel
  | (_, item) :: rest, sel, cnt =>
    if limit ≤ (sel.length : ℤ) then sel
    else if cnt (sourceOf item) < 3 then
      selectLoop limit rest (sel ++ [item])
        (fun s => if s = sourceOf item then cnt (sourceOf item) + 1 else cnt s)
    else selectLoop limit rest sel cnt

/-- Embedding of the backfill pass (lines 183-193): append items whose
link is not among the already-selected links, ignoring the per-source cap,
until `limit` is reached. `links` embeds the `already_selected_links`
set. -/
def backfillLoop (limit : ℤ) : List (ℚ × Item) → List Item → List String → List Item
  | [], sel, _ => sel
  | (_, item) :: rest, sel, links =>
    if limit ≤ (sel.length : ℤ) then sel
    else if item.link ∈ links then backfillLoop limit rest sel links
    else backfillLoop limit rest (sel ++ [item]) (links ++ [item.link])

/-- Embedding of the Python slice `selected[:limit]` for an `int` bound:
`take limit` when `limit` is non-negative, and everything but the last
`-limit` elements when it is negative. -/
def pySlice (limit : ℤ) (l : List Item) : List Item :=
  if 0 ≤ limit then l.take limit.toNat else l.take (l.length - (-limit).toNat)

/-- The sorted scored list built by `rank_items` before selection. -/
def sortedScored (items : List Item) : List (ℚ × Item) :=
  sortDesc (items.map fun it => (score_item it, it))

/-- The result of the first selection pass of `rank_items`. -/
def firstPass (items : List Item) (limit : ℤ) : List Item :=
  selectLoop limit (sortedScored items) [] (fun _ => 0)

/-- Embedding of `rank_items(items, limit)` (lines 101-195 of
`scripts/generate.py`): score, stable-sort descending, run the capped
first pass, backfill by link identity when under `limit`, and finally
slice `selected[:limit]`. -/
def rank_items (items : List Item) (limit : ℤ) : List Item :=
  let sel := firstPass items limit
  let sel2 :=
    if (sel.length : ℤ) < limit then
      backfillLoop limit (sortedScored items) sel (sel.map Item.link)
    else sel
  pySlice limit sel2

/-- Modelled from the spec's words ("deduplicated-by-link items": items
with equal link are considered duplicates and only the first occurrence
counts). `seen` accumulates the links already kept; the spec quantity is
`specDedupByLink [] items`. Stated only for comparison with the code's
behavior. -/
def specDedupByLink (seen : List String) : List Item → List Item
  | [] => []
  | it :: rest =>
    if it.link ∈ seen then specDedupByLink seen rest
    else it :: specDedupByLink (seen ++ [it.link]) rest

/-- Removes one leading `www.` label, leaving the rest untouched (the
spec's wording of the fallback domain computation). -/
def stripLeadWWW : List Char → List Char
  | 'w' :: 'w' :: 'w' :: '.' :: rest => rest
  | l => l

/-- Modelled from the spec's words (§4.2, step 3): source identity falls
back to the URL's domain with a leading `www.` label stripped, and to the
sentinel `"unknown"` when neither the source nor a usable link is
available. Stated only for comparison with `sourceOf`, which embeds the
code. -/
def specSourceId (it : Item) : String :=
  if it.source ≠ "" then it.source
  else if it.link ≠ "" then String.mk (stripLeadWWW (netlocList it.link))
  else "unknown"

/-- One feed entry as a Python dict with possibly-missing keys: `none`
embeds an absent key. Used to state the scorer's behavior on items with
missing fields. -/
structure RawItem where
  source : Option String
  title : Option String
  link : Option String
  summary : Option String
  published : Option String
  deriving DecidableEq

/-- Embedding of Python's `d[k]` dict access: a `KeyError` naming the key
(embedded as `Except.error`) when the key is absent. -/
def getKey (v : Option String) (k : String) : Except String String :=
  match v with
  | some s => Except.ok s
  | none => Except.error k

/-- The scoring block of `rank_items` applied to a raw dict item,
embedding the accesses `it["title"]`, `it["summary"]` and `it["link"]`
(which raise `KeyError` when the key is absent) exactly in source
order. -/
def scoreRaw (it : RawItem) : Except String ℚ := do
  let title ← getKey it.title "title"
  let summary ← getKey it.summary "summary"
  let text := lowerList (title ++ " " ++ summary)
  let keyScore : ℤ := countMatches KEYS text
  let link ← getKey it.link "link"
  let base : ℤ := keyScore + (if link ≠ "" then 1 else 0)
  let avoid : ℤ := countMatches AVOID_KEYS text
  let clamped : ℤ := max 0 (base - avoid * 2)
  pure (if subStr "arxiv.org" link then (clamped : ℚ) * (7 / 10) else (clamped : ℚ))

/-- The number of items of `l` whose source identity is `s`. -/
def countSrc (s : String) (l : List Item) : Nat :=
  (l.filter fun it => sourceOf it == s).length

/-- The number of entries of `S` whose item's link is not among `links`:
exactly the entries the backfill pass may still append. -/
def freshCount (links : List String) (S : List (ℚ × Item)) : Nat :=
  (S.filter fun p => decide (p.2.link ∉ links)).length

/-! ### Concrete inputs used by counterexamples and witnesses -/

/-- Two distinct items sharing one non-empty link (first pass selects both). -/
def cexDup1 : Item := ⟨"s", "aaa", "http://x.com/1", "", ""⟩

/-- Second item with the same link as `cexDup1`. -/
def cexDup2 : Item := ⟨"s", "bbb", "http://x.com/1", "", ""⟩

/-- Duplicate-link pair from two different sources. -/
def cexDup3 : Item := ⟨"u", "aaa", "http://y.com/1", "", ""⟩

/-- Second item with the same link as `cexDup3`. -/
def cexDup4 : Item := ⟨"v", "bbb", "http://y.com/1", "", ""⟩

/-- Source-`s` item with one keyword and a link (score 2). -/
def c5s1 : Item := ⟨"s", "tariff", "http://s.com/1", "", ""⟩

/-- Second source-`s` item of score 2. -/
def c5s2 : Item := ⟨"s", "tariff", "http://s.com/2", "", ""⟩

/-- Third source-`s` item of score 2. -/
def c5s3 : Item := ⟨"s", "tariff", "http://s.com/3", "", ""⟩

/-- Source-`s` item of score 1, earlier in the input than `c5b`. -/
def c5a : Item := ⟨"s", "zzz", "http://s.com/4", "", ""⟩

/-- Source-`t` item of score 1, later in the input than `c5a`. -/
def c5b : Item := ⟨"t", "yyy", "http://t.com/5", "", ""⟩

/-- Input on which the result order of two equal-score items differs from
their input order: `c5a` is cap-skipped and backfilled after `c5b`. -/
def c5input : List Item := [c5s1, c5s2, c5s3, c5a, c5b]

/-- Source-`s` item of score 3 (two keywords plus link). -/
def c10s1 : Item := ⟨"s", "tariff sanctions", "http://s.com/11", "", ""⟩

/-- Second source-`s` item of score 3. -/
def c10s2 : Item := ⟨"s", "tariff sanctions", "http://s.com/12", "", ""⟩

/-- Third source-`s` item of score 3. -/
def c10s3 : Item := ⟨"s", "tariff sanctions", "http://s.com/13", "", ""⟩

/-- Fourth source-`s` item of score 3: cap-skipped, then backfilled. -/
def c10s4 : Item := ⟨"s", "tariff sanctions", "http://s.com/14", "", ""⟩

/-- Source-`t` item of score 1: selected in the first pass. -/
def c10b : Item := ⟨"t", "zzz", "http://t.com/15", "", ""⟩

/-- Input whose selector output is not in descending score order. -/
def c10input : List Item := [c10s1, c10s2, c10s3, c10s4, c10b]

/-- Item with empty source and a link whose domain contains an interior
`www.` label. -/
def c6w : Item := ⟨"", "t", "http://a.www.com/x", "", ""⟩

/-- Item with empty source and empty link. -/
def c6u : Item := ⟨"", "t", "", "", ""⟩

/-! ### Helper lemmas about the sort and the two selection passes -/

theorem insertDesc_perm (x : ℚ × Item) (l : List (ℚ × Item)) :
    List.Perm (insertDesc x l) (x :: l) := by
  induction l with
  | nil => rfl
  | cons y ys ih =>
    rw [insertDesc]
    split
    · rfl
    · exact (ih.cons y).trans (List.Perm.swap x y ys)

theorem sortDesc_perm (l : List (ℚ × Item)) : List.Perm (sortDesc l) l := by
  induction l with
  | nil => rfl
  | cons x xs ih => exact (insertDesc_perm x (sortDesc xs)).trans (ih.cons x)

theorem sortedScored_perm (items : List Item) :
    List.Perm (sortedScored items) (items.map fun it => (score_item it, it)) :=
  sortDesc_perm _

theorem sortedScored_items_perm (items : List Item) :
    List.Perm ((sortedScored items).map fun p => p.2) items := by
  have h := (sortedScored_perm items).map fun p => p.2
  rw [List.map_map] at h
  have hc : ((fun p : ℚ × Item => p.2) ∘ fun it => (score_item it, it)) = id := rfl
  rw [hc, List.map_id] at h
  exact h

theorem sortedScored_links_nodup (items : List Item)
    (hnd : (items.map Item.link).Nodup) :
    ((sortedScored items).map fun p => p.2.link).Nodup := by
  have h : List.Perm ((sortedScored items).map fun p => p.2.link) (items.map Item.link) := by
    have h2 := (sortedScored_perm items).map fun p => p.2.link
    rw [List.map_map] at h2
    have hc : ((fun p : ℚ × Item => p.2.link) ∘ fun it => (score_item it, it)) = Item.link := rfl
    rw [hc] at h2
    exact h2
  exact h.nodup_iff.mpr hnd

theorem selectLoop_extend (limit : ℤ) (S : List (ℚ × Item)) :
    ∀ sel cnt, ∃ t, selectLoop limit S sel cnt = sel ++ t ∧
      t.Sublist (S.map fun p => p.2) := by
  induction S with
  | nil =>
    intro sel cnt
    exact ⟨[], by simp [selectLoop], List.nil_sublist _⟩
  | cons p rest ih =>
    intro sel cnt
    obtain ⟨q, x⟩ := p
    by_cases h : limit ≤ (sel.length : ℤ)
    · exact ⟨[], by simp [selectLoop, h], List.nil_sublist _⟩
    · by_cases h3 : cnt (sourceOf x) < 3
      · obtain ⟨t, ht, hs⟩ := ih (sel ++ [x])
          (fun s => if s = sourceOf x then cnt (sourceOf x) + 1 else cnt s)
        refine ⟨x :: t, ?_, ?_⟩
        · rw [selectLoop, if_neg h, if_pos h3, ht]; simp
        · simpa using hs.cons₂ x
      · obtain ⟨t, ht, hs⟩ := ih sel cnt
        refine ⟨t, ?_, ?_⟩
        · rw [selectLoop, if_neg h, if_neg h3, ht]
        · simpa using hs.cons x

theorem selectLoop_length_le (limit : ℤ) (S : List (ℚ × Item)) :
    ∀ sel cnt, (selectLoop limit S sel cnt).length ≤ max sel.length limit.toNat := by
  induction S with
  | nil => intro sel cnt; simp [selectLoop]
  | cons p rest ih =>
    intro sel cnt
    obtain ⟨q, x⟩ := p
    by_cases h : limit ≤ (sel.length : ℤ)
    · simp [selectLoop, h]
    · by_cases h3 : cnt (sourceOf x) < 3
      · rw [selectLoop, if_neg h, if_pos h3]
        have := ih (sel ++ [x])
          (fun s => if s = sourceOf x then cnt (sourceOf x) + 1 else cnt s)
        simp only [List.length_append, List.length_singleton] at this
        omega
      · rw [selectLoop, if_neg h, if_neg h3]
        exact ih sel cnt

theorem countSrc_append (s : String) (l₁ l₂ : List Item) :
    countSrc s (l₁ ++ l₂) = countSrc s l₁ + countSrc s l₂ := by
  simp [countSrc]

theorem selectLoop_count (limit : ℤ) (S : List (ℚ × Item)) :
    ∀ sel cnt, (∀ s, countSrc s sel = cnt s ∧ cnt s ≤ 3) →
      ∀ s, countSrc s (selectLoop limit S sel cnt) ≤ 3 := by
  induction S with
  | nil =>
    intro sel cnt hinv s
    rw [selectLoop]
    exact (hinv s).1 ▸ (hinv s).2
  | cons p rest ih =>
    intro sel cnt hinv s
    obtain ⟨q, x⟩ := p
    by_cases h : limit ≤ (sel.length : ℤ)
    · rw [selectLoop, if_pos h]
      exact (hinv s).1 ▸ (hinv s).2
    · by_cases h3 : cnt (sourceOf x) < 3
      · rw [selectLoop, if_neg h, if_pos h3]
        refine ih (sel ++ [x]) _ (fun s' => ?_) s
        by_cases hs : s' = sourceOf x
        · subst hs
          constructor
          · rw [countSrc_append]
            have h1 : countSrc (sourceOf x) [x] = 1 := by simp [countSrc]
            rw [h1, (hinv (sourceOf x)).1, if_pos rfl]
          · rw [if_pos rfl]; omega
        · constructor
          · rw [countSrc_append]
            have h0 : countSrc s' [x] = 0 := by simp [countSrc, Ne.symm hs]
            rw [h0, Nat.add_zero, (hinv s').1, if_neg hs]
          · rw [if_neg hs]; exact (hinv s').2
      · rw [selectLoop, if_neg h, if_neg h3]
        exact ih sel cnt hinv s

theorem backfillLoop_extend (limit : ℤ) (S : List (ℚ × Item)) :
    ∀ sel links, ∃ t, backfillLoop limit S sel links = sel ++ t ∧
      t.Sublist (S.map fun p => p.2) := by
  induction S with
  | nil =>
    intro sel links
    exact ⟨[], by simp [backfillLoop], List.nil_sublist _⟩
  | cons p rest ih =>
    intro sel links
    obtain ⟨q, x⟩ := p
    by_cases h : limit ≤ (sel.length : ℤ)
    · exact ⟨[], by simp [backfillLoop, h], List.nil_sublist _⟩
    · by_cases hm : x.link ∈ links
      · obtain ⟨t, ht, hs⟩ := ih sel links
        refine ⟨t, ?_, ?_⟩
        · rw [backfillLoop, if_neg h, if_pos hm, ht]
        · simpa using hs.cons x
      · obtain ⟨t, ht, hs⟩ := ih (sel ++ [x]) (links ++ [x.link])
        refine ⟨x :: t, ?_, ?_⟩
        · rw [backfillLoop, if_neg h, if_neg hm, ht]; simp
        · simpa using hs.cons₂ x

theorem backfillLoop_links_nodup (limit : ℤ) (S : List (ℚ × Item)) :
    ∀ sel links, links = sel.map Item.link → links.Nodup →
      ((backfillLoop limit S sel links).map Item.link).Nodup := by
  induction S with
  | nil =>
    intro sel links heq hnd
    rw [backfillLoop]
    exact heq ▸ hnd
  | cons p rest ih =>
    intro sel links heq hnd
    obtain ⟨q, x⟩ := p
    by_cases h : limit ≤ (sel.length : ℤ)
    · rw [backfillLoop, if_pos h]
      exact heq ▸ hnd
    · by_cases hm : x.link ∈ links
      · rw [backfillLoop, if_neg h, if_pos hm]
        exact ih sel links heq hnd
      · rw [backfillLoop, if_neg h, if_neg hm]
        refine ih (sel ++ [x]) (links ++ [x.link]) (by simp [heq]) ?_
        simpa [List.nodup_append, hnd] using hm

theorem freshCount_nil (links : List String) : freshCount links [] = 0 := rfl

theorem freshCount_cons_mem (links : List String) (q : ℚ) (x : Item)
    (S : List (ℚ × Item)) (h : x.link ∈ links) :
    freshCount links ((q, x) :: S) = freshCount links S := by
  simp [freshCount, h]

theorem freshCount_cons_not_mem (links : List String) (q : ℚ) (x : Item)
    (S : List (ℚ × Item)) (h : x.link ∉ links) :
    freshCount links ((q, x) :: S) = freshCount links S + 1 := by
  simp [freshCount, h]

theorem freshCount_grow (x : String) (S : List (ℚ × Item))
    (hx : x ∉ S.map fun p => p.2.link) (links : List String) :
    freshCount (links ++ [x]) S = freshCount links S := by
  unfold freshCount
  congr 1
  refine List.filter_congr fun p hp => ?_
  have hne : p.2.link ≠ x := by
    intro he
    exact hx (he ▸ List.mem_map_of_mem (fun p => p.2.link) hp)
  simp [hne]

theorem backfillLoop_length (limit : ℤ) (S : List (ℚ × Item)) :
    ∀ sel links, ((S.map fun p => p.2.link).Nodup) →
      (backfillLoop limit S sel links).length =
        max sel.length (min limit.toNat (sel.length + freshCount links S)) := by
  induction S with
  | nil =>
    intro sel links _
    rw [backfillLoop, freshCount_nil]
    omega
  | cons p rest ih =>
    intro sel links hnd
    obtain ⟨q, x⟩ := p
    have hnd' : ((rest.map fun p => p.2.link).Nodup) := (List.nodup_cons.mp hnd).2
    have hxr : x.link ∉ rest.map fun p => p.2.link := (List.nodup_cons.mp hnd).1
    by_cases h : limit ≤ (sel.length : ℤ)
    · rw [backfillLoop, if_pos h]
      omega
    · by_cases hm : x.link ∈ links
      · rw [backfillLoop, if_neg h, if_pos hm, ih sel links hnd',
          freshCount_cons_mem links q x rest hm]
      · rw [backfillLoop, if_neg h, if_neg hm, ih (sel ++ [x]) (links ++ [x.link]) hnd',
          freshCount_grow x.link rest hxr links, freshCount_cons_not_mem links q x rest hm]
        simp only [List.length_append, List.length_singleton]
        omega

theorem length_filter_split {α : Type} (p : α → Bool) (l : List α) :
    (l.filter p).length + (l.filter fun a => !(p a)).length = l.length := by
  induction l with
  | nil => rfl
  | cons a t ih =>
    by_cases h : p a = true
    · simp [List.filter, h, Bool.not_eq_true, ← ih]
      omega
    · have h' : p a = false := by revert h; cases p a <;> simp
      simp [List.filter, h', ← ih]
      omega

theorem filter_mem_length (M links : List String) (h : links.Sublist M)
    (hnd : M.Nodup) :
    (M.filter fun l => decide (l ∈ links)).length = links.length := by
  induction h with
  | slnil => rfl
  | cons a h ih =>
    rename_i l₁ l₂
    have hnd' : l₂.Nodup := (List.nodup_cons.mp hnd).2
    have ha : a ∉ l₂ := (List.nodup_cons.mp hnd).1
    have hal : a ∉ l₁ := fun hmem => ha (h.subset hmem)
    simp [List.filter, hal, ih hnd']
  | cons₂ a h ih =>
    rename_i l₁ l₂
    have hnd' : l₂.Nodup := (List.nodup_cons.mp hnd).2
    have ha : a ∉ l₂ := (List.nodup_cons.mp hnd).1
    have hcongr : l₂.filter (fun l => decide (l ∈ a :: l₁)) =
        l₂.filter (fun l => decide (l ∈ l₁)) := by
      refine List.filter_congr fun b hb => ?_
      have hne : b ≠ a := fun he => ha (he ▸ hb)
      simp [hne]
    rw [List.filter_cons_of_pos (by simp), hcongr]
    simp [ih hnd']

theorem pySlice_sublist (limit : ℤ) (l : List Item) : (pySlice limit l).Sublist l := by
  unfold pySlice
  split <;> exact List.take_sublist _ _

theorem pySlice_length_nonneg (limit : ℤ) (h : 0 ≤ limit) (l : List Item) :
    (pySlice limit l).length = min limit.toNat l.length := by
  rw [pySlice, if_pos h]
  exact List.length_take _ _

theorem pySlice_nil (limit : ℤ) : pySlice limit [] = [] := by
  unfold pySlice
  split <;> simp

theorem selectLoop_nonpos (limit : ℤ) (h : limit ≤ 0) (S : List (ℚ × Item))
    (cnt : String → Nat) : selectLoop limit S [] cnt = [] := by
  cases S with
  | nil => rfl
  | cons p rest =>
    obtain ⟨q, x⟩ := p
    rw [selectLoop, if_pos (by simpa using h)]

theorem firstPass_sublist (items : List Item) (limit : ℤ) :
    (firstPass items limit).Sublist ((sortedScored items).map fun p => p.2) := by
  obtain ⟨t, ht, hs⟩ := selectLoop_extend limit (sortedScored items) [] (fun _ => 0)
  rw [firstPass, ht]
  simpa using hs

theorem firstPass_length_le (items : List Item) (limit : ℤ) :
    (firstPass items limit).length ≤ limit.toNat := by
  have h := selectLoop_length_le limit (sortedScored items) [] (fun _ => 0)
  simpa [firstPass] using h

theorem firstPass_links_sublist (items : List Item) (limit : ℤ) :
    ((firstPass items limit).map Item.link).Sublist
      ((sortedScored items).map fun p => p.2.link) := by
  have h := (firstPass_sublist items limit).map Item.link
  rw [List.map_map] at h
  have hc : (Item.link ∘ fun p : ℚ × Item => p.2) = fun p : ℚ × Item => p.2.link := rfl
  rw [hc] at h
  exact h

theorem rank_items_decomp (items : List Item) (limit : ℤ) :
    ∃ extra, rank_items items limit = pySlice limit (firstPass items limit ++ extra) ∧
      extra.Sublist ((sortedScored items).map fun p => p.2) := by
  by_cases h : (↑(firstPass items limit).length : ℤ) < limit
  · obtain ⟨t, ht, hs⟩ := backfillLoop_extend limit (sortedScored items)
      (firstPass items limit) ((firstPass items limit).map Item.link)
    refine ⟨t, ?_, hs⟩
    simp only [rank_items]
    rw [if_pos h, ht]
  · refine ⟨[], ?_, List.nil_sublist _⟩
    simp only [rank_items]
    rw [if_neg h, List.append_nil]

theorem freshCount_of_firstPass (items : List Item) (limit : ℤ)
    (hnd : (items.map Item.link).Nodup) :
    freshCount ((firstPass items limit).map Item.link) (sortedScored items) =
      items.length - (firstPass items limit).length := by
  have hndS := sortedScored_links_nodup items hnd
  have hlinks := firstPass_links_sublist items limit
  have hMlen : ((sortedScored items).map fun p => p.2.link).length = items.length := by
    rw [List.length_map, (sortedScored_perm items).length_eq, List.length_map]
  have hstep1 : freshCount ((firstPass items limit).map Item.link) (sortedScored items) =
      ((((sortedScored items).map fun p => p.2.link).filter
        fun l => decide (l ∉ (firstPass items limit).map Item.link)).length) := by
    rw [freshCount, ← List.countP_eq_length_filter, ← List.countP_eq_length_filter,
      List.countP_map]
    rfl
  have hmem := filter_mem_length ((sortedScored items).map fun p => p.2.link)
    ((firstPass items limit).map Item.link) hlinks hndS
  have hneg : (((sortedScored items).map fun p => p.2.link).filter
      fun l => decide (l ∉ (firstPass items limit).map Item.link)) =
      (((sortedScored items).map fun p => p.2.link).filter
      fun l => !(decide (l ∈ (firstPass items limit).map Item.link))) := by
    simp only [decide_not]
  have hsplit := length_filter_split
    (fun l => decide (l ∈ (firstPass items limit).map Item.link))
    ((sortedScored items).map fun p => p.2.link)
  have hfl : ((firstPass items limit).map Item.link).length =
      (firstPass items limit).length := List.length_map _ _
  rw [hstep1, hneg]
  omega

theorem rank_items_length_nodup (items : List Item) (limit : ℤ)
    (hnd : (items.map Item.link).Nodup) :
    (rank_items items limit).length = min limit.toNat items.length := by
  have hndS := sortedScored_links_nodup items hnd
  have hlen_le := firstPass_length_le items limit
  have hsub := firstPass_sublist items limit
  have hsel_le_n : (firstPass items limit).length ≤ items.length := by
    have h := hsub.length_le
    rw [List.length_map, (sortedScored_perm items).length_eq, List.length_map] at h
    exact h
  by_cases hb : (↑(firstPass items limit).length : ℤ) < limit
  · have h0 : 0 ≤ limit := by omega
    have hbl := backfillLoop_length limit (sortedScored items) (firstPass items limit)
      ((firstPass items limit).map Item.link) hndS
    have hfc := freshCount_of_firstPass items limit hnd
    simp only [rank_items]
    rw [if_pos hb, pySlice_length_nonneg limit h0, hbl, hfc]
    omega
  · simp only [rank_items]
    rw [if_neg hb]
    by_cases h0 : 0 ≤ limit
    · rw [pySlice_length_nonneg limit h0]
      omega
    · have hsel0 : firstPass items limit = [] := by
        rw [firstPass]
        exact selectLoop_nonpos limit (by omega) _ _
      rw [hsel0, pySlice_nil]
      simp only [List.length_nil]
      omega

theorem rank_items_links_nodup (items : List Item) (limit : ℤ)
    (hnd : (items.map Item.link).Nodup) :
    ((rank_items items limit).map Item.link).Nodup := by
  have hndS := sortedScored_links_nodup items hnd
  have hfp : ((firstPass items limit).map Item.link).Nodup :=
    (firstPass_links_sublist items limit).nodup hndS
  simp only [rank_items]
  by_cases hb : (↑(firstPass items limit).length : ℤ) < limit
  · rw [if_pos hb]
    have h2 := backfillLoop_links_nodup limit (sortedScored items)
      (firstPass items limit) ((firstPass items limit).map Item.link) rfl hfp
    exact ((pySlice_sublist limit _).map Item.link).nodup h2
  · rw [if_neg hb]
    exact ((pySlice_sublist limit _).map Item.link).nodup hfp

theorem rank_items_subset (items : List Item) (limit : ℤ) :
    ∀ x ∈ rank_items items limit, x ∈ items := by
  intro x hx
  obtain ⟨extra, heq, hs⟩ := rank_items_decomp items limit
  rw [heq] at hx
  have hx2 := (pySlice_sublist limit _).subset hx
  rcases List.mem_append.mp hx2 with h1 | h2
  · exact (sortedScored_items_perm items).subset ((firstPass_sublist items limit).subset h1)
  · exact (sortedScored_items_perm items).subset (hs.subset h2)

theorem insertDesc_filter (q : ℚ) (x : ℚ × Item) (l : List (ℚ × Item)) :
    (insertDesc x l).filter (fun p => decide (p.1 = q)) =
      (x :: l).filter (fun p => decide (p.1 = q)) := by
  induction l with
  | nil => rfl
  | cons y ys ih =>
    rw [insertDesc]
    by_cases h : y.1 ≤ x.1
    · rw [if_pos h]
    · rw [if_neg h]
      by_cases hx : x.1 = q
      · have hy : ¬(y.1 = q) := fun he => h (le_of_eq (he.trans hx.symm))
        simp [List.filter_cons, hx, hy, ih]
      · simp [List.filter_cons, hx, ih]

theorem sortDesc_filter (q : ℚ) :
    ∀ l : List (ℚ × Item), (sortDesc l).filter (fun p => decide (p.1 = q)) =
      l.filter (fun p => decide (p.1 = q)) := by
  intro l
  induction l with
  | nil => rfl
  | cons x xs ih =>
    rw [sortDesc, insertDesc_filter]
    simp [List.filter_cons, ih]

theorem specDedup_eq_self :
    ∀ (l : List Item) (seen : List String), (l.map Item.link).Nodup →
      (∀ x ∈ l, x.link ∉ seen) → specDedupByLink seen l = l := by
  intro l
  induction l with
  | nil => intro seen _ _; rfl
  | cons it rest ih =>
    intro seen hnd hseen
    have hm : it.link ∉ seen := hseen it (List.mem_cons_self it rest)
    rw [specDedupByLink, if_neg hm]
    congr 1
    refine ih (seen ++ [it.link]) (List.nodup_cons.mp hnd).2 (fun x hx => ?_)
    have hne : x.link ≠ it.link := by
      intro he
      exact (List.nodup_cons.mp hnd).1 (he ▸ List.mem_map_of_mem Item.link hx)
    simp [hne, hseen x (List.mem_cons_of_mem it hx)]

theorem score_item_nonneg (it : Item) : 0 ≤ score_item it := by
  by_cases h : subStr "arxiv.org" it.link
  · simp only [score_item, if_pos h]
    refine mul_nonneg ?_ (by norm_num)
    exact_mod_cast le_max_left 0 _
  · simp only [score_item, if_neg h]
    exact_mod_cast le_max_left 0 _

/-! ### The ten claims -/

/-- C1, counterexample: for two distinct items sharing one non-empty link
and `limit = 12`, the first pass selects both, so the result length (2)
differs from `min(limit, number of items after deduplication by link)`
(which is 1): the claimed identity fails on inputs with duplicate
links. -/
theorem C1_counterexample :
    ¬ ((rank_items [cexDup1, cexDup2] 12).length =
        min (12 : ℤ).toNat (specDedupByLink [] [cexDup1, cexDup2]).length) := by
  decide

/-- C1, amended: for inputs whose items have pairwise-distinct links (so
that deduplication by link keeps every item), the selector returns exactly
`min(limit, number of deduplicated items)` items; with duplicate links the
first pass does not deduplicate and the result can be longer than that. -/
theorem C1_length_eq_min_dedup (items : List Item) (limit : ℤ)
    (hnd : (items.map Item.link).Nodup) :
    (rank_items items limit).length =
      min limit.toNat (specDedupByLink [] items).length := by
  rw [specDedup_eq_self items [] hnd (by simp)]
  exact rank_items_length_nodup items limit hnd

/-- C1, witness: the amended claim evaluated on two distinct-link items
with `limit = 12`. -/
theorem C1_witness :
    (([c5s1, c5b].map Item.link).Nodup) ∧
      (rank_items [c5s1, c5b] 12).length =
        min (12 : ℤ).toNat (specDedupByLink [] [c5s1, c5b]).length :=
  ⟨by decide, C1_length_eq_min_dedup [c5s1, c5b] 12 (by decide)⟩

/-- C2, counterexample: two distinct items sharing one non-empty link are
both selected by the first pass, so the result contains two items with the
same non-empty link — the claimed pairwise property fails. -/
theorem C2_counterexample :
    ¬ ((rank_items [cexDup3, cexDup4] 12).Pairwise
        fun a b => a.link = b.link → a.link = "") := by
  decide

/-- C2, amended: for inputs whose items have pairwise-distinct links, no
two items of the result share a link; in general, duplicate links in the
result can arise only from the first pass, which does not deduplicate. -/
theorem C2_result_links_nodup (items : List Item) (limit : ℤ)
    (hnd : (items.map Item.link).Nodup) :
    ((rank_items items limit).map Item.link).Nodup :=
  rank_items_links_nodup items limit hnd

/-- C2, witness: the amended claim evaluated on two distinct-link items. -/
theorem C2_witness :
    (([c5s2, c5b].map Item.link).Nodup) ∧
      ((rank_items [c5s2, c5b] 12).map Item.link).Nodup :=
  ⟨by decide, C2_result_links_nodup [c5s2, c5b] 12 (by decide)⟩

/-- C3, counterexample: an item whose `title` key is absent makes the
scoring block raise `KeyError` (the dict access `it["title"]`), so the
scorer does not treat missing fields as empty. -/
theorem C3_counterexample :
    scoreRaw ⟨some "s", none, some "http://x.com/1", some "", some ""⟩ =
      Except.error "title" := rfl

/-- C3, amended: for every item whose `title`, `summary` and `link` keys
are present (each possibly the empty string), the scorer returns a numeric
score without error, and it agrees with `score_item`; an item missing any
of these keys raises `KeyError` instead. -/
theorem C3_scorer_total_on_present (src : Option String) (t l sm : String)
    (p : Option String) :
    scoreRaw ⟨src, some t, some l, some sm, p⟩ =
      Except.ok (score_item ⟨src.getD "", t, l, sm, p.getD ""⟩) := rfl

/-- C4: the computed score is always non-negative: the additive terms are
clamped at 0 (`max(0, ...)`) before the multiplicative `0.7` arXiv
penalty, which preserves non-negativity. -/
theorem C4_score_nonneg (it : Item) : 0 ≤ score_item it :=
  score_item_nonneg it

/-- C5, counterexample: `c5a` and `c5b` have equal scores and `c5a`
precedes `c5b` in the input, but `c5a` is cap-skipped in the first pass
and backfilled after `c5b`, so their relative order in the selector's
result is inverted — result-level stability fails. -/
theorem C5_counterexample :
    score_item c5a = score_item c5b ∧
      List.indexOf c5a c5input < List.indexOf c5b c5input ∧
      c5a ∈ rank_items c5input 12 ∧ c5b ∈ rank_items c5input 12 ∧
      List.indexOf c5b (rank_items c5input 12) <
        List.indexOf c5a (rank_items c5input 12) := by
  decide

/-- C5, amended: the sort itself is stable — for every score `q`, the
subsequence of entries of score `q` is unchanged by the descending sort,
so equal-score items keep their input order in the sorted sequence (and
hence within each selection pass); the inversion can only occur between a
first-pass item and a backfilled item. -/
theorem C5_sort_stable (items : List Item) (q : ℚ) :
    (sortedScored items).filter (fun p => decide (p.1 = q)) =
      (items.map fun it => (score_item it, it)).filter
        (fun p => decide (p.1 = q)) :=
  sortDesc_filter q _

/-- C6, counterexample: for an empty `source` and the link
`http://a.www.com/x`, the code removes every occurrence of `www.` from the
netloc (`a.com`), not only a leading label (`a.www.com`); and for an item
with neither source nor link the code keeps the empty string, not the
`"unknown"` sentinel. -/
theorem C6_counterexample :
    sourceOf c6w ≠ specSourceId c6w ∧ sourceOf c6u ≠ specSourceId c6u := by
  decide

/-- C6, amended: when `source` is empty, the per-source identity is the
link's netloc with every occurrence of `www.` removed when the link is
non-empty, and the empty string (not `"unknown"`) when the link is empty
too. -/
theorem C6_source_identity (it : Item) (h : it.source = "") :
    sourceOf it =
      (if it.link ≠ "" then String.mk (removeWWW (netlocList it.link)) else "") := by
  rw [sourceOf, if_neg (by simp [h])]

/-- C6, witness: the amended identity evaluated on `c6w`. -/
theorem C6_witness :
    c6w.source = "" ∧
      sourceOf c6w =
        (if c6w.link ≠ "" then String.mk (removeWWW (netlocList c6w.link)) else "") :=
  ⟨rfl, C6_source_identity c6w rfl⟩

/-- C7: the selector's result has length at most `limit` (as a natural
number: at most `max(limit, 0)`), the empty input yields the empty result,
and a non-positive `limit` yields the empty result; the embedding is total,
so no error is signalled. -/
theorem C7_limit_bounds (items : List Item) (limit : ℤ) :
    (rank_items items limit).length ≤ limit.toNat ∧
      rank_items [] limit = [] ∧
      (limit ≤ 0 → rank_items items limit = []) := by
  have h3 : limit ≤ 0 → rank_items items limit = [] := by
    intro hle
    have hfp : firstPass items limit = [] := by
      rw [firstPass]
      exact selectLoop_nonpos limit hle _ _
    simp only [rank_items]
    rw [hfp, if_neg (by simp; omega)]
    exact pySlice_nil limit
  refine ⟨?_, ?_, h3⟩
  · by_cases h0 : 0 ≤ limit
    · obtain ⟨extra, heq, _⟩ := rank_items_decomp items limit
      rw [heq, pySlice_length_nonneg limit h0]
      omega
    · rw [h3 (by omega)]
      simp
  · simp [rank_items, firstPass, sortedScored, sortDesc, selectLoop,
      backfillLoop, pySlice]

/-- C7, witness: a negative `limit` on a non-empty input yields `[]`. -/
theorem C7_witness :
    ((-2 : ℤ) ≤ 0) ∧ rank_items [cexDup1] (-2) = [] :=
  ⟨by decide, (C7_limit_bounds [cexDup1] (-2)).2.2 (by decide)⟩

/-- C8: every source has at most 3 items in the first pass; the whole
result is a `limit`-slice of the first pass followed by backfilled items;
and when the first pass already reaches `limit` (no backfill needed), the
per-source count of the whole result is at most 3. Backfilled items are
the only way a source can exceed the cap. -/
theorem C8_per_source_cap (items : List Item) (limit : ℤ) (src : String) :
    countSrc src (firstPass items limit) ≤ 3 ∧
      (∃ extra, rank_items items limit =
        pySlice limit (firstPass items limit ++ extra)) ∧
      (limit ≤ (↑(firstPass items limit).length : ℤ) →
        countSrc src (rank_items items limit) ≤ 3) := by
  have hcap : countSrc src (firstPass items limit) ≤ 3 := by
    rw [firstPass]
    exact selectLoop_count limit (sortedScored items) [] (fun _ => 0)
      (fun s => ⟨rfl, by simp⟩) src
  refine ⟨hcap, ?_, ?_⟩
  · obtain ⟨extra, heq, _⟩ := rank_items_decomp items limit
    exact ⟨extra, heq⟩
  · intro hge
    have hb : ¬ ((↑(firstPass items limit).length : ℤ) < limit) := by omega
    simp only [rank_items]
    rw [if_neg hb]
    have hsub := (pySlice_sublist limit (firstPass items limit)).filter
      (fun it => sourceOf it == src)
    calc countSrc src (pySlice limit (firstPass items limit))
        ≤ countSrc src (firstPass items limit) := hsub.length_le
      _ ≤ 3 := hcap

/-- C8, witness: the cap statement evaluated where the first pass already
fills `limit`. -/
theorem C8_witness :
    ((1 : ℤ) ≤ (↑(firstPass [c5s1] 1).length : ℤ)) ∧
      countSrc "s" (rank_items [c5s1] 1) ≤ 3 :=
  ⟨by decide, (C8_per_source_cap [c5s1] 1 "s").2.2 (by decide)⟩

/-- C9: ranking and selection never change an item: every element of the
result is (an unchanged) element of the input list. In the embedding items
are immutable values, so membership states exact field equality. -/
theorem C9_items_unchanged (items : List Item) (limit : ℤ) :
    ∀ x ∈ rank_items items limit, x ∈ items :=
  rank_items_subset items limit

/-- C9, witness: evaluated on a single-item input. -/
theorem C9_witness :
    c5s3 ∈ rank_items [c5s3] 1 ∧ c5s3 ∈ [c5s3] :=
  ⟨by decide, C9_items_unchanged [c5s3] 1 c5s3 (by decide)⟩

/-- C10: the result is always the `limit`-slice of the first-pass items
followed by the backfilled items, so backfilled items come last; and on
`c10input` the cap-skipped score-3 item `c10s4` is backfilled after the
score-1 item `c10b`, so the result is not in descending score order. -/
theorem C10_backfill_order :
    (∀ (items : List Item) (limit : ℤ), ∃ extra,
        rank_items items limit = pySlice limit (firstPass items limit ++ extra)) ∧
      rank_items c10input 12 = [c10s1, c10s2, c10s3, c10b, c10s4] ∧
      score_item c10b < score_item c10s4 := by
  refine ⟨fun items limit => ?_, by decide, by decide⟩
  obtain ⟨extra, heq, _⟩ := rank_items_decomp items limit
  exact ⟨extra, heq⟩

end Newsletter
